import Mathlib

/-!
Verification of the WILL binary stroke decoder (`willparser/willparser.py`).

The decoder is embedded shallowly:

* bytes are `Nat` (Python iterates over `bytes` as integers `0..255`);
* Python's arbitrary-precision integers are `Nat`/`Int` (no overflow occurs in
  the source, which never masks to a fixed width);
* Python `float` division by `10 ** precision` is modelled as exact division
  in `ℚ` (the claims under study are stated as exact decimal equalities);
* code that can raise (`_ints[0]` on a too-short list) returns `Option`.

Each definition mirrors one function of the source file; the mirrored lines
are cited in its doc comment.
-/

namespace WillParser

/-- Zigzag step of `__read_packed_sint32` (willparser.py line 469):
`_n = (__l >> 1) ^ -(__l & 1)`.  `__l` is a nonnegative Python int, so the
shift and mask are `Nat` operations; the xor with a possibly negative int is
two's-complement xor on `ℤ` (`Int.xor`). -/
def zigzag_decode (l : Nat) : Int :=
  Int.xor ((l >>> 1 : Nat) : Int) (-((l &&& 1 : Nat) : Int))

/-- Loop body of `__read_packed_sint32` (willparser.py lines 460-473).
State: `l` is the accumulator `__l`, `i` is the 7-bit-group index `__i`.
A byte with the continuation bit set adds its low 7 bits shifted by `7*i`;
a byte without it terminates the varint, whose value is zigzag-decoded and
appended. -/
def packed_go : List Nat → Nat → Nat → List Int
  | [], _, _ => []
  | b :: rest, l, i =>
    if b &&& 0x80 = 0x80 then
      packed_go rest (l + ((b &&& 0x7F) <<< (7 * i))) (i + 1)
    else
      zigzag_decode (l + ((b &&& 0x7F) <<< (7 * i))) :: packed_go rest 0 0

/-- `__read_packed_sint32` (willparser.py lines 452-473): decode a packed
sequence of zigzag varints.  A trailing byte group whose continuation bit is
still set when the payload ends is left in the accumulator and produces no
output (the source has no malformed-input check). -/
def read_packed_sint32 (payload : List Nat) : List Int :=
  packed_go payload 0 0

/-- The `(__l, __i)` accumulator state of `__read_packed_sint32` after
scanning a byte list (used to reason about concatenated payloads). -/
def packedState : List Nat → Nat × Nat → Nat × Nat
  | [], st => st
  | b :: rest, st =>
    if b &&& 0x80 = 0x80 then
      packedState rest (st.1 + ((b &&& 0x7F) <<< (7 * st.2)), st.2 + 1)
    else
      packedState rest (0, 0)

/-- Standard little-endian base-128 varint encoding of a nonnegative
integer, as described by the spec's round-trip law (the repository contains
only the decoder; this is the canonical encoder the law quantifies over). -/
def varintEncode (u : Nat) : List Nat :=
  if h : u < 128 then [u] else (u % 128 + 128) :: varintEncode (u / 128)
decreasing_by exact Nat.div_lt_self (by omega) (by omega)

/-- Standard zigzag encoding of a signed integer (`2v` for `v ≥ 0`,
`-2v - 1` for `v < 0`), the inverse the spec's round-trip law pairs with the
decoder's `(u >> 1) ^ -(u & 1)`. -/
def zigzagEncode (v : Int) : Nat :=
  if 0 ≤ v then 2 * v.toNat else 2 * (-v).toNat - 1

/-- Loop of `__decode_will_coordinates` (willparser.py lines 487-489):
`k` remaining iterations of `for i in range(2, _l)`, `idx` is the running
index `_i` (starts at 2, advances by 2), `pt` is the most recently appended
point `_points[i - 2]`.  The source indexes `_ints[_i]` and `_ints[_i + 1]`,
always in bounds for the actual arguments, rendered here with `getD`. -/
def coordIter (ints : List Int) : Nat → Nat → Int × Int → List (Int × Int)
  | 0, _, _ => []
  | k + 1, idx, pt =>
    (pt.1 + ints.getD idx 0, pt.2 + ints.getD (idx + 1) 0) ::
      coordIter ints k (idx + 2)
        (pt.1 + ints.getD idx 0, pt.2 + ints.getD (idx + 1) 0)

/-- `__decode_will_coordinates` (willparser.py lines 475-494).
`_l = len(ints) // 2`; the first point is `[ints[0], ints[1]]` (an
out-of-range index raises in Python, modelled by `none`); the loop appends
`_l - 2` cumulative points; finally every coordinate is divided by
`10 ** precision`. -/
def decode_will_coordinates (ints : List Int) (precision : Nat) :
    Option (List (ℚ × ℚ)) :=
  match ints[0]?, ints[1]? with
  | some a, some b =>
    some (List.map
      (fun q : Int × Int =>
        ((q.1 : ℚ) / 10 ^ precision, (q.2 : ℚ) / 10 ^ precision))
      ((a, b) :: coordIter ints (ints.length / 2 - 2) 2 (a, b)))
  | _, _ => none

/-- First loop of `__decode_delta_encoded` (willparser.py lines 506-507):
`_ints[i] = _ints[i - 1] + _ints[i]` turns the list into its running sums;
`prev` is the already-updated previous element (initially absent, rendered
as 0 so the head is unchanged). -/
def delta_cumsum : Int → List Int → List Int
  | _, [] => []
  | prev, x :: xs => (prev + x) :: delta_cumsum (prev + x) xs

/-- `__decode_delta_encoded` (willparser.py lines 496-511): running sums,
then every element divided by `10 ** precision`. -/
def decode_delta_encoded (ints : List Int) (precision : Nat) : List ℚ :=
  List.map (fun n : Int => (n : ℚ) / 10 ^ precision) (delta_cumsum 0 ints)

/-- State of the framing loop of `__read_will_paths` (willparser.py lines
409-427): `l` = `_l` (bytes still to consume of the current record),
`ll` = `__l` (length-prefix accumulator), `i` = `__i` (7-bit-group index),
`paths` = `_paths` (records so far; bytes are appended to the last one). -/
structure FrameSt where
  l : Nat
  ll : Nat
  i : Nat
  paths : List (List Nat)
deriving DecidableEq

/-- `_paths[len(_paths) - 1].append(b)` (willparser.py line 425): append a
byte to the last record.  The source can only reach this with `_paths`
nonempty; on `[]` we return `[]` (the Python would raise). -/
def appendLast : List (List Nat) → Nat → List (List Nat)
  | [], _ => []
  | [r], b => [r ++ [b]]
  | r :: rs, b => r :: appendLast rs b

/-- One iteration of the framing loop of `__read_will_paths` (willparser.py
lines 413-426).  With `_l == 0` a length-prefix byte is absorbed (on the
terminating byte a new empty record is appended and `_l` is set, while `__i`
and `__l` are *not* reset there); otherwise the byte belongs to the current
record and `__i`, `__l` are reset. -/
def frame_step (s : FrameSt) (b : Nat) : FrameSt :=
  if s.l = 0 then
    if b &&& 0x80 = 0x80 then
      ⟨0, s.ll + ((b &&& 0x7F) <<< (7 * s.i)), s.i + 1, s.paths⟩
    else
      ⟨s.ll + ((b &&& 0x7F) <<< (7 * s.i)),
       s.ll + ((b &&& 0x7F) <<< (7 * s.i)), s.i, s.paths ++ [[]]⟩
  else
    ⟨s.l - 1, 0, 0, appendLast s.paths b⟩

/-- `for b in payload` of the framing loop: fold `frame_step` over the
payload. -/
def frame_run : List Nat → FrameSt → FrameSt
  | [], s => s
  | b :: rest, s => frame_run rest (frame_step s b)

/-- The framing stage of `__read_will_paths` (willparser.py lines 409-427):
split a payload into length-prefixed sub-records.  The loop simply stops at
the end of the payload: there is no truncation check of any kind. -/
def read_will_frame (payload : List Nat) : List (List Nat) :=
  (frame_run payload ⟨0, 0, 0, []⟩).paths

/-- A correctly framed payload: each record preceded by the varint encoding
of its length (the construction quantified over by the framing round-trip
law). -/
def buildPayload : List (List Nat) → List Nat
  | [] => []
  | r :: rs => varintEncode r.length ++ r ++ buildPayload rs

/-- A parsed sub-record, with the seven fields declared in `wacompath.py`
lines 8-14 (field numbers 1, 2, 3, 4, 5, 6, 9).  `startParameter` and
`endParameter` are floats in the source, modelled in `ℚ`; the three byte
arrays are byte lists. -/
structure Path where
  startParameter : ℚ
  endParameter : ℚ
  decimalPrecision : Nat
  points : List Nat
  strokeWidths : List Nat
  strokeColor : List Nat
  unknown : Option Int
deriving DecidableEq

/-- The per-record dictionary built by `__read_will_paths` (willparser.py
lines 442-447): `{"points": …, "strokes": …, "avg_width": …, "color": …}`. -/
structure PathDict where
  points : List (ℚ × ℚ)
  strokes : List ℚ
  avg_width : ℚ
  color : List Int
deriving DecidableEq

/-- `numpy.average` over the decoded widths (willparser.py line 439):
arithmetic mean, `sum / length`.  (On an empty array numpy yields NaN; `ℚ`
division by zero yields 0; no claim depends on that case.) -/
def avgQ (xs : List ℚ) : ℚ := xs.sum / (xs.length : ℚ)

/-- Body of the per-record loop of `__read_will_paths` (willparser.py lines
430-448): decode the points, the widths (delta run), the average width and
the colors of one parsed record, with no cross-checks between them.  A
failure inside coordinate decoding aborts (`none`), as the Python exception
would. -/
def assemble_record (p : Path) : Option PathDict :=
  match decode_will_coordinates (read_packed_sint32 p.points)
      p.decimalPrecision with
  | none => none
  | some points =>
    let strokes :=
      decode_delta_encoded (read_packed_sint32 p.strokeWidths)
        p.decimalPrecision
    some ⟨points, strokes, avgQ strokes, read_packed_sint32 p.strokeColor⟩

/-! ### Bit-level helper lemmas -/

theorem and128_of_lt (b : Nat) (h : b < 128) : b &&& 128 = 0 := by
  have h7 : (128 : Nat) = 2 ^ 7 := by norm_num
  rw [h7, Nat.and_two_pow, Nat.testBit_lt_two_pow (by omega)]
  simp

theorem and127_of_lt (b : Nat) (h : b < 128) : b &&& 127 = b := by
  have h7 : (127 : Nat) = 2 ^ 7 - 1 := by norm_num
  rw [h7, Nat.and_pow_two_sub_one_eq_mod, Nat.mod_eq_of_lt (by omega)]

theorem and128_add (r : Nat) (h : r < 128) : (r + 128) &&& 128 = 128 := by
  have h7 : (128 : Nat) = 2 ^ 7 := by norm_num
  rw [h7, Nat.and_two_pow]
  have ht : (r + 2 ^ 7).testBit 7 = true := by
    rw [Nat.testBit_to_div_mod]
    norm_num
    omega
  rw [ht]
  norm_num

theorem and127_add (r : Nat) (h : r < 128) : (r + 128) &&& 127 = r := by
  have h7 : (127 : Nat) = 2 ^ 7 - 1 := by norm_num
  rw [h7, Nat.and_pow_two_sub_one_eq_mod]
  norm_num
  omega

/-! ### Zigzag decoding -/

theorem zigzag_decode_even (m : Nat) : zigzag_decode (2 * m) = (m : Int) := by
  unfold zigzag_decode
  have h1 : (2 * m) >>> 1 = m := by rw [Nat.shiftRight_eq_div_pow]; omega
  have h2 : (2 * m) &&& 1 = 0 := by rw [Nat.and_one_is_mod]; omega
  rw [h1, h2]
  show Int.xor (Int.ofNat m) (-(Int.ofNat 0)) = (m : Int)
  have h0 : (-(Int.ofNat 0)) = Int.ofNat 0 := by norm_num
  rw [h0]
  simp [Int.xor]

theorem zigzag_decode_odd (m : Nat) :
    zigzag_decode (2 * m + 1) = -(m : Int) - 1 := by
  unfold zigzag_decode
  have h1 : (2 * m + 1) >>> 1 = m := by rw [Nat.shiftRight_eq_div_pow]; omega
  have h2 : (2 * m + 1) &&& 1 = 1 := by rw [Nat.and_one_is_mod]; omega
  rw [h1, h2]
  have hn : (-(((1 : Nat) : Int))) = Int.negSucc 0 := by rfl
  rw [hn]
  show Int.xor (Int.ofNat m) (Int.negSucc 0) = -(m : Int) - 1
  simp [Int.xor, Int.negSucc_eq]
  omega

theorem zigzag_roundtrip (v : Int) : zigzag_decode (zigzagEncode v) = v := by
  unfold zigzagEncode
  by_cases h : 0 ≤ v
  · rw [if_pos h, zigzag_decode_even]
    omega
  · rw [if_neg h]
    have hm : 2 * (-v).toNat - 1 = 2 * ((-v).toNat - 1) + 1 := by omega
    rw [hm, zigzag_decode_odd]
    omega

/-! ### Packed varint decoding -/

theorem packed_go_cons (b : Nat) (rest : List Nat) (l i : Nat) :
    packed_go (b :: rest) l i =
      if b &&& 0x80 = 0x80 then
        packed_go rest (l + ((b &&& 0x7F) <<< (7 * i))) (i + 1)
      else
        zigzag_decode (l + ((b &&& 0x7F) <<< (7 * i))) :: packed_go rest 0 0 :=
  rfl

theorem packed_go_varint (u : Nat) : ∀ (rest : List Nat) (l i : Nat),
    packed_go (varintEncode u ++ rest) l i =
      zigzag_decode (l + u * 2 ^ (7 * i)) :: packed_go rest 0 0 := by
  induction u using Nat.strong_induction_on with
  | _ u ih =>
    intro rest l i
    rw [varintEncode]
    by_cases h : u < 128
    · rw [dif_pos h]
      show packed_go (u :: rest) l i = _
      rw [packed_go_cons]
      have hc : ¬(u &&& 0x80 = 0x80) := by rw [and128_of_lt u h]; omega
      rw [if_neg hc, and127_of_lt u h, Nat.shiftLeft_eq]
    · rw [dif_neg h]
      show packed_go ((u % 128 + 128) :: (varintEncode (u / 128) ++ rest)) l i
          = _
      rw [packed_go_cons]
      have hr : u % 128 < 128 := Nat.mod_lt _ (by omega)
      rw [if_pos (and128_add _ hr), and127_add _ hr, Nat.shiftLeft_eq,
        ih (u / 128) (Nat.div_lt_self (by omega) (by omega))]
      congr 2
      have e : 2 ^ (7 * (i + 1)) = 2 ^ (7 * i) * 128 := by
        rw [Nat.mul_add, pow_add]
        norm_num
      rw [e]
      conv_rhs => rw [← Nat.mod_add_div u 128]
      ring

/-! ### Framing -/

theorem appendLast_concat (last : List Nat) (b : Nat) :
    ∀ paths : List (List Nat),
      appendLast (paths ++ [last]) b = paths ++ [last ++ [b]] := by
  intro paths
  induction paths with
  | nil => rfl
  | cons p ps ih =>
    cases ps with
    | nil => rfl
    | cons q qs =>
      show appendLast (p :: ((q :: qs) ++ [last])) b = _
      have step : appendLast (p :: ((q :: qs) ++ [last])) b
          = p :: appendLast ((q :: qs) ++ [last]) b := rfl
      rw [step, ih]
      rfl

theorem frame_run_cons (b : Nat) (rest : List Nat) (s : FrameSt) :
    frame_run (b :: rest) s = frame_run rest (frame_step s b) := rfl

theorem frame_run_varint (L : Nat) : ∀ (ll i : Nat) (tail : List Nat)
    (paths : List (List Nat)), ∃ i2,
    frame_run (varintEncode L ++ tail) ⟨0, ll, i, paths⟩ =
      frame_run tail
        ⟨ll + L * 2 ^ (7 * i), ll + L * 2 ^ (7 * i), i2, paths ++ [[]]⟩ := by
  induction L using Nat.strong_induction_on with
  | _ L ih =>
    intro ll i tail paths
    rw [varintEncode]
    by_cases h : L < 128
    · refine ⟨i, ?_⟩
      rw [dif_pos h]
      show frame_run (L :: tail) ⟨0, ll, i, paths⟩ = _
      rw [frame_run_cons]
      have hc : ¬(L &&& 0x80 = 0x80) := by rw [and128_of_lt L h]; omega
      show frame_run tail (frame_step ⟨0, ll, i, paths⟩ L) = _
      rw [show frame_step ⟨0, ll, i, paths⟩ L
          = ⟨ll + ((L &&& 0x7F) <<< (7 * i)),
             ll + ((L &&& 0x7F) <<< (7 * i)), i, paths ++ [[]]⟩ by
        unfold frame_step
        rw [if_pos rfl, if_neg hc]]
      rw [and127_of_lt L h, Nat.shiftLeft_eq]
    · rw [dif_neg h]
      have hr : L % 128 < 128 := Nat.mod_lt _ (by omega)
      show ∃ i2, frame_run ((L % 128 + 128) :: (varintEncode (L / 128) ++ tail))
          ⟨0, ll, i, paths⟩ = _
      rw [frame_run_cons]
      rw [show frame_step ⟨0, ll, i, paths⟩ (L % 128 + 128)
          = ⟨0, ll + (((L % 128 + 128) &&& 0x7F) <<< (7 * i)), i + 1, paths⟩ by
        unfold frame_step
        rw [if_pos rfl, if_pos (and128_add _ hr)]]
      rw [and127_add _ hr, Nat.shiftLeft_eq]
      obtain ⟨i2, h2⟩ := ih (L / 128) (Nat.div_lt_self (by omega) (by omega))
        (ll + L % 128 * 2 ^ (7 * i)) (i + 1) tail paths
      refine ⟨i2, ?_⟩
      rw [h2]
      have e : 2 ^ (7 * (i + 1)) = 2 ^ (7 * i) * 128 := by
        rw [Nat.mul_add, pow_add]
        norm_num
      have e2 : ll + L % 128 * 2 ^ (7 * i) + L / 128 * 2 ^ (7 * (i + 1))
          = ll + L * 2 ^ (7 * i) := by
        rw [e]
        conv_rhs => rw [← Nat.mod_add_div L 128]
        ring
      rw [e2]

theorem frame_run_zerolen (tail : List Nat) (paths : List (List Nat)) :
    frame_run (varintEncode 0 ++ tail) ⟨0, 0, 0, paths⟩ =
      frame_run tail ⟨0, 0, 0, paths ++ [[]]⟩ := by
  have h0 : varintEncode 0 = [0] := by
    rw [varintEncode]
    norm_num
  rw [h0]
  rfl

theorem frame_run_record (r : List Nat) : ∀ (b : Nat) (rest : List Nat)
    (ll i : Nat) (paths : List (List Nat)) (last : List Nat),
    frame_run ((b :: r) ++ rest) ⟨(b :: r).length, ll, i, paths ++ [last]⟩ =
      frame_run rest ⟨0, 0, 0, paths ++ [last ++ (b :: r)]⟩ := by
  induction r with
  | nil =>
    intro b rest ll i paths last
    simp only [List.cons_append, List.nil_append]
    rw [frame_run_cons]
    rw [show frame_step ⟨[b].length, ll, i, paths ++ [last]⟩ b
        = ⟨0, 0, 0, appendLast (paths ++ [last]) b⟩ by
      unfold frame_step
      rw [if_neg (by simp)]
      simp]
    rw [appendLast_concat]
  | cons c r' ih =>
    intro b rest ll i paths last
    simp only [List.cons_append]
    rw [frame_run_cons]
    rw [show frame_step ⟨(b :: c :: r').length, ll, i, paths ++ [last]⟩ b
        = ⟨(c :: r').length, 0, 0, appendLast (paths ++ [last]) b⟩ by
      unfold frame_step
      rw [if_neg (by simp)]
      simp]
    rw [appendLast_concat]
    have := ih c rest 0 0 paths (last ++ [b])
    rw [show (last ++ [b]) ++ (c :: r') = last ++ (b :: c :: r') by simp] at this
    exact this

theorem frame_run_build : ∀ (rs : List (List Nat)) (paths : List (List Nat)),
    frame_run (buildPayload rs) ⟨0, 0, 0, paths⟩ = ⟨0, 0, 0, paths ++ rs⟩ := by
  intro rs
  induction rs with
  | nil => intro paths; simp [buildPayload, frame_run]
  | cons r rs ih =>
    intro paths
    show frame_run (varintEncode r.length ++ r ++ buildPayload rs) _ = _
    rw [List.append_assoc]
    cases r with
    | nil =>
      rw [show ([] : List Nat).length = 0 by rfl]
      rw [show ([] : List Nat) ++ buildPayload rs = buildPayload rs by rfl]
      rw [frame_run_zerolen, ih]
      simp
    | cons b r' =>
      obtain ⟨i2, h2⟩ := frame_run_varint (b :: r').length 0 0
        ((b :: r') ++ buildPayload rs) paths
      rw [h2]
      rw [show (0 : Nat) + (b :: r').length * 2 ^ (7 * 0) = (b :: r').length by
        simp]
      rw [show (paths ++ [[]] : List (List Nat)) = paths ++ [([] : List Nat)]
        from rfl]
      rw [frame_run_record, ih]
      simp

theorem frame_run_truncated : ∀ (r : List Nat) (l ll i : Nat)
    (paths : List (List Nat)) (last : List Nat), r.length < l →
    (frame_run r ⟨l, ll, i, paths ++ [last]⟩).paths = paths ++ [last ++ r] := by
  intro r
  induction r with
  | nil => intro l ll i paths last _; simp [frame_run]
  | cons b r' ih =>
    intro l ll i paths last h
    rw [frame_run_cons]
    rw [show frame_step ⟨l, ll, i, paths ++ [last]⟩ b
        = ⟨l - 1, 0, 0, appendLast (paths ++ [last]) b⟩ by
      unfold frame_step
      rw [if_neg (by simp at h ⊢; omega)]]
    rw [appendLast_concat]
    have := ih (l - 1) 0 0 paths (last ++ [b]) (by simp at h ⊢; omega)
    rw [this]
    simp

theorem frame_run_allcont : ∀ (bs : List Nat) (ll i : Nat)
    (paths : List (List Nat)), (∀ b ∈ bs, b &&& 0x80 = 0x80) →
    (frame_run bs ⟨0, ll, i, paths⟩).paths = paths := by
  intro bs
  induction bs with
  | nil => intro ll i paths _; rfl
  | cons b bs' ih =>
    intro ll i paths h
    rw [frame_run_cons]
    rw [show frame_step ⟨0, ll, i, paths⟩ b
        = ⟨0, ll + ((b &&& 0x7F) <<< (7 * i)), i + 1, paths⟩ by
      unfold frame_step
      rw [if_pos rfl, if_pos (h b (by simp))]]
    exact ih _ _ _ (fun x hx => h x (by simp [hx]))

/-! ### Delta decoding, coordinate decoding and packed appends: helper lemmas -/

theorem delta_cumsum_length (prev : Int) (ints : List Int) :
    (delta_cumsum prev ints).length = ints.length := by
  induction ints generalizing prev with
  | nil => rfl
  | cons x xs ih => simp [delta_cumsum, ih]

theorem delta_cumsum_getElem (ints : List Int) : ∀ (prev : Int) (i : Nat),
    i < ints.length →
    (delta_cumsum prev ints)[i]? = some (prev + (ints.take (i + 1)).sum) := by
  induction ints with
  | nil => intro prev i h; simp at h
  | cons x xs ih =>
    intro prev i h
    cases i with
    | zero => simp [delta_cumsum]
    | succ j =>
      have step : delta_cumsum prev (x :: xs)
          = (prev + x) :: delta_cumsum (prev + x) xs := rfl
      rw [step]
      simp only [List.getElem?_cons_succ]
      rw [ih (prev + x) j (by simp at h; omega)]
      simp [add_assoc]

theorem coordIter_append (ints : List Int) (x : Int) :
    ∀ (k idx : Nat) (pt : Int × Int), idx + 2 * k ≤ ints.length →
    coordIter (ints ++ [x]) k idx pt = coordIter ints k idx pt := by
  intro k
  induction k with
  | zero => intro idx pt _; rfl
  | succ j ih =>
    intro idx pt h
    unfold coordIter
    rw [List.getD_eq_getElem?_getD (ints ++ [x]) idx,
      List.getElem?_append_left (by omega), ← List.getD_eq_getElem?_getD]
    rw [List.getD_eq_getElem?_getD (ints ++ [x]) (idx + 1),
      List.getElem?_append_left (by omega), ← List.getD_eq_getElem?_getD]
    rw [ih (idx + 2) _ (by omega)]

theorem packedState_cons (b : Nat) (rest : List Nat) (st : Nat × Nat) :
    packedState (b :: rest) st =
      if b &&& 0x80 = 0x80 then
        packedState rest (st.1 + ((b &&& 0x7F) <<< (7 * st.2)), st.2 + 1)
      else packedState rest (0, 0) := rfl

theorem packed_go_append (xs : List Nat) : ∀ (ys : List Nat) (l i : Nat),
    packed_go (xs ++ ys) l i =
      packed_go xs l i ++
        packed_go ys (packedState xs (l, i)).1 (packedState xs (l, i)).2 := by
  induction xs with
  | nil => intro ys l i; rfl
  | cons b xs' ih =>
    intro ys l i
    show packed_go (b :: (xs' ++ ys)) l i = _
    rw [packed_go_cons, packed_go_cons, packedState_cons]
    by_cases h : b &&& 0x80 = 0x80
    · rw [if_pos h, if_pos h, if_pos h, ih]
    · rw [if_neg h, if_neg h, if_neg h, ih]
      simp

theorem packed_go_allcont : ∀ (t : List Nat) (l i : Nat),
    (∀ b ∈ t, b &&& 0x80 = 0x80) → packed_go t l i = [] := by
  intro t
  induction t with
  | nil => intro l i _; rfl
  | cons b t' ih =>
    intro l i h
    rw [packed_go_cons, if_pos (h b (by simp))]
    exact ih _ _ (fun x hx => h x (by simp [hx]))

/-! ### Claim C1 -/

/-- C1: the claim states that for every even-length `ints` with at least two
elements the point decoder returns exactly `len(ints)/2` points.  The code
does not: its loop `for i in range(2, _l)` performs only `_l - 2` appends,
so `[1, 2, 3, 4]` (two pairs) decodes to the single point `(1, 2)` — the
final delta pair is dropped.  This theorem evaluates the embedded code at
that failing input.  (The other half of the claim, that the first point is
`(ints[0], ints[1]) / 10^p`, is visible in the output.) -/
theorem c1_code_eval :
    decode_will_coordinates [1, 2, 3, 4] 0 = some [((1 : ℚ), (2 : ℚ))] := by
  simp [decode_will_coordinates, coordIter]

/-! ### Claim C2 -/

/-- C2: the claim (and the spec's end-to-end example) expects ints
`[4, 6, 2, -2, 0, 4]` at precision 2 to decode to the three points
`(0.04, 0.06), (0.06, 0.04), (0.06, 0.08)`.  The code produces only the
first two of them: the cumulative-sum reconstruction is as claimed, but the
loop drops the last `(0, 4)` delta pair.  This theorem evaluates the
embedded code at that input. -/
theorem c2_code_eval :
    decode_will_coordinates [4, 6, 2, -2, 0, 4] 2
      = some [(4 / 100, 6 / 100), (6 / 100, 4 / 100)] := by
  simp [decode_will_coordinates, coordIter]
  norm_num

/-! ### Claim C3 -/

/-- C3 counterexample: a sub-record whose widths decode to two values while
its points decode to one point is assembled into a stroke without any
`WidthCountMismatch` failure, so an emitted stroke with
`len(points) ≠ len(strokeWidths)` exists — refuting the claim. -/
theorem c3_counterexample :
    (assemble_record ⟨0, 1, 0, [2, 4], [2, 2], [], none⟩).map
      (fun s => (s.points.length, s.strokes.length)) = some (1, 2) := by
  decide

/-- C3 amended: the assembly step performs no width/point count comparison
at all: whenever the point decode succeeds it emits the stroke, with the
widths, average width and colors computed independently of the point count. -/
theorem c3_amended_thm (p : Path) (pts : List (ℚ × ℚ))
    (h : decode_will_coordinates (read_packed_sint32 p.points)
        p.decimalPrecision = some pts) :
    assemble_record p = some
      ⟨pts,
       decode_delta_encoded (read_packed_sint32 p.strokeWidths)
         p.decimalPrecision,
       avgQ (decode_delta_encoded (read_packed_sint32 p.strokeWidths)
         p.decimalPrecision),
       read_packed_sint32 p.strokeColor⟩ := by
  unfold assemble_record
  rw [h]

/-- C3 witness: the amended theorem instantiated at the concrete
mismatching record (one point, two widths). -/
theorem c3_witness :
    assemble_record ⟨0, 1, 0, [2, 4], [2, 2], [], none⟩
      = some ⟨[((1 : ℚ), (2 : ℚ))], [(1 : ℚ), (2 : ℚ)], 3 / 2, []⟩ := by
  have h := c3_amended_thm ⟨0, 1, 0, [2, 4], [2, 2], [], none⟩
    [((1 : ℚ), (2 : ℚ))]
    (by
      rw [show read_packed_sint32 [2, 4] = [1, 2] from by decide]
      simp [decode_will_coordinates, coordIter])
  rw [h]
  rw [show read_packed_sint32 [2, 2] = [1, 1] from by decide]
  rw [show read_packed_sint32 [] = ([] : List Int) from rfl]
  rw [show decode_delta_encoded [1, 1] 0 = [(1 : ℚ), (2 : ℚ)] by
    simp [decode_delta_encoded, delta_cumsum]]
  rw [show avgQ [(1 : ℚ), (2 : ℚ)] = 3 / 2 by
    simp [avgQ]
    norm_num]

/-! ### Claim C4 -/

/-- C4 counterexample: a payload ending in a partial varint (continuation
bit still set on the last byte) is decoded with no `MalformedPacked`
failure: `[2, 0x80]` yields `[1]` — the trailing partial varint is silently
dropped — and the lone continuation byte `[0x80]` yields the empty
sequence.  Both refute the claim that decoding fails there. -/
theorem c4_counterexample :
    read_packed_sint32 [2, 128] = [1] ∧
    read_packed_sint32 [128] = ([] : List Int) := by
  constructor <;> decide

/-- C4 amended: packed decoding never fails; appending any run of
continuation-bit bytes (a partial trailing varint) to a payload leaves the
decoded sequence unchanged — the partial varint is silently dropped. -/
theorem c4_amended_thm (bs t : List Nat)
    (h : ∀ b ∈ t, b &&& 0x80 = 0x80) :
    read_packed_sint32 (bs ++ t) = read_packed_sint32 bs := by
  unfold read_packed_sint32
  rw [packed_go_append, packed_go_allcont t _ _ h]
  simp

/-- C4 witness: the amended theorem instantiated at the payload `[4]` with
the partial trailing varint `[200]`. -/
theorem c4_witness :
    read_packed_sint32 ([4] ++ [200]) = read_packed_sint32 [4] :=
  c4_amended_thm [4] [200] (by decide)

/-! ### Claim C5 -/

/-- C5 counterexample: a payload whose length prefix declares 3 bytes but
supplies only one is framed with no `TruncatedRecord` failure, and the
short partial sub-record `[7]` IS emitted — refuting the claim that no
short or partial sub-record is ever emitted. -/
theorem c5_counterexample : read_will_frame [3, 7] = [[7]] := by decide

/-- C5 amended: the framing loop performs no truncation checks.  When a
declared length `L` exceeds the bytes that remain, the partial sub-record
consisting of exactly the remaining bytes is emitted; when a length
prefix's continuation sequence runs off the end of input, the partial
prefix is silently discarded and no sub-record is emitted for it. -/
theorem c5_amended_thm :
    (∀ (L : Nat) (r : List Nat), r.length < L →
      read_will_frame (varintEncode L ++ r) = [r]) ∧
    (∀ bs : List Nat, (∀ b ∈ bs, b &&& 0x80 = 0x80) →
      read_will_frame bs = []) := by
  constructor
  · intro L r h
    unfold read_will_frame
    obtain ⟨i2, h2⟩ := frame_run_varint L 0 0 r []
    rw [h2]
    have e : (0 : Nat) + L * 2 ^ (7 * 0) = L := by simp
    rw [e]
    have ht := frame_run_truncated r L L i2 [] [] h
    simp only [List.nil_append] at ht ⊢
    rw [ht]
  · intro bs h
    unfold read_will_frame
    exact frame_run_allcont bs 0 0 [] h

/-- C5 witness: the amended theorem instantiated at length prefix 2 with a
single remaining byte, and at the lone continuation byte `[0x80]`. -/
theorem c5_witness :
    read_will_frame (varintEncode 2 ++ [170]) = [[170]] ∧
    read_will_frame [128] = [] :=
  ⟨c5_amended_thm.1 2 [170] (by decide),
   c5_amended_thm.2 [128] (by decide)⟩

/-! ### Claim C6 -/

/-- C6 counterexample: the odd-length input `[1, 2, 3]` decodes to the
point sequence `[(1, 2)]` with no `OddLength` failure (the unpaired final
integer is silently ignored) — refuting the claim that an odd-length input
fails and returns no point sequence. -/
theorem c6_counterexample :
    decode_will_coordinates [1, 2, 3] 0 = some [((1 : ℚ), (2 : ℚ))] := by
  simp [decode_will_coordinates, coordIter]

/-- C6 amended: the point decoder performs no explicit validation.  With
fewer than two integers it fails by raising an out-of-range index access
(`none` in the embedding), not a distinct `EmptyInput` error; with an
even-length input of at least two integers, appending a trailing unpaired
integer (making the length odd) leaves the output unchanged — the odd
trailing integer is silently ignored rather than rejected. -/
theorem c6_amended_thm :
    (∀ (ints : List Int) (p : Nat), ints.length < 2 →
      decode_will_coordinates ints p = none) ∧
    (∀ (ints : List Int) (x : Int) (p : Nat), ints.length % 2 = 0 →
      2 ≤ ints.length →
      decode_will_coordinates (ints ++ [x]) p
        = decode_will_coordinates ints p) := by
  constructor
  · intro ints p h
    match ints with
    | [] => rfl
    | [a] => rfl
    | a :: b :: t =>
      simp at h
      omega
  · intro ints x p heven hlen
    match ints with
    | a :: b :: t =>
      show decode_will_coordinates (a :: b :: (t ++ [x])) p = _
      unfold decode_will_coordinates
      simp only [List.getElem?_cons_zero, List.getElem?_cons_succ]
      have hl : (a :: b :: (t ++ [x])).length / 2
          = (a :: b :: t).length / 2 := by
        simp at heven ⊢
        omega
      rw [hl]
      have hiter : coordIter ((a :: b :: t) ++ [x])
            ((a :: b :: t).length / 2 - 2) 2 (a, b)
          = coordIter (a :: b :: t) ((a :: b :: t).length / 2 - 2) 2 (a, b) := by
        apply coordIter_append
        simp at heven ⊢
        omega
      simp only [List.cons_append] at hiter
      rw [hiter]

/-- C6 witness: the amended theorem instantiated at the empty input and at
`[1, 2]` with the trailing unpaired integer 3. -/
theorem c6_witness :
    decode_will_coordinates [] 0 = none ∧
    decode_will_coordinates ([1, 2] ++ [3]) 0
      = decode_will_coordinates [1, 2] 0 :=
  ⟨c6_amended_thm.1 [] 0 (by decide),
   c6_amended_thm.2 [1, 2] 3 0 (by decide) (by decide)⟩

/-! ### Claim C7 -/

/-- C7: for every non-empty integer sequence and precision `p`, scalar
delta decoding preserves the length, and the `i`-th output times `10^p` is
the prefix sum `ints[0] + ... + ints[i]`. -/
theorem c7_thm (ints : List Int) (p : Nat) (_hne : ints ≠ []) :
    (decode_delta_encoded ints p).length = ints.length ∧
    ∀ i : Nat, i < ints.length →
      (decode_delta_encoded ints p).getD i 0 * 10 ^ p
        = ((ints.take (i + 1)).sum : ℚ) := by
  constructor
  · unfold decode_delta_encoded
    rw [List.length_map, delta_cumsum_length]
  · intro i h
    unfold decode_delta_encoded
    rw [List.getD_eq_getElem?_getD, List.getElem?_map,
      delta_cumsum_getElem ints 0 i h]
    show ((0 + (ints.take (i + 1)).sum : Int) : ℚ) / 10 ^ p * 10 ^ p = _
    rw [div_mul_cancel₀ _ (by positivity)]
    norm_num

/-- C7 witness: the theorem instantiated at the spec's example
`[100, 10, -5]` with precision 2 (index 2: `1.05 * 100 = 105`). -/
theorem c7_witness :
    (decode_delta_encoded [100, 10, -5] 2).length = 3 ∧
    (decode_delta_encoded [100, 10, -5] 2).getD 2 0 * 10 ^ 2
      = ((([100, 10, -5] : List Int).take (2 + 1)).sum : ℚ) :=
  ⟨(c7_thm [100, 10, -5] 2 (by decide)).1,
   (c7_thm [100, 10, -5] 2 (by decide)).2 2 (by decide)⟩

/-! ### Claim C8 -/

/-- C8: framing applied to the concatenation of `N` sub-records, each
preceded by the varint encoding of its length, returns exactly those `N`
sub-records, bit-identical and in order. -/
theorem c8_thm (rs : List (List Nat)) :
    read_will_frame (buildPayload rs) = rs := by
  unfold read_will_frame
  rw [frame_run_build]
  rfl

/-! ### Claim C9 -/

/-- C9: for every 32-bit signed integer `v`, varint-decoding the zigzag-
then-varint encoding of `v` with the code's packed decoder (which applies
`(u >> 1) ^ -(u & 1)`) recovers exactly `v`. -/
theorem c9_thm (v : Int) (_h1 : -(2 ^ 31) ≤ v) (_h2 : v < 2 ^ 31) :
    read_packed_sint32 (varintEncode (zigzagEncode v)) = [v] := by
  unfold read_packed_sint32
  have h := packed_go_varint (zigzagEncode v) [] 0 0
  simp only [List.append_nil, Nat.mul_zero, pow_zero, Nat.mul_one,
    Nat.zero_add] at h
  rw [h, zigzag_roundtrip]
  rfl

/-- C9 witness: the round trip at `v = -300` (encoded as the two-byte
varint of zigzag 599). -/
theorem c9_witness :
    (-(2 ^ 31) : Int) ≤ -300 ∧ ((-300 : Int) < 2 ^ 31) ∧
    read_packed_sint32 (varintEncode (zigzagEncode (-300))) = [-300] :=
  ⟨by decide, by decide, c9_thm (-300) (by decide) (by decide)⟩

/-! ### Claim C10 -/

/-- C10: two parsed sub-records agreeing on fields 3 (decimalPrecision),
4 (points), 5 (strokeWidths) and 6 (strokeColor) but arbitrary in fields
1 (startParameter), 2 (endParameter) and 9 (unknown) assemble to identical
stroke outputs: fields 1, 2 and 9 never flow into an emitted stroke. -/
theorem c10_thm (p q : Path)
    (h3 : p.decimalPrecision = q.decimalPrecision)
    (h4 : p.points = q.points)
    (h5 : p.strokeWidths = q.strokeWidths)
    (h6 : p.strokeColor = q.strokeColor) :
    assemble_record p = assemble_record q := by
  obtain ⟨s1, e1, d1, pt1, w1, col1, u1⟩ := p
  obtain ⟨s2, e2, d2, pt2, w2, col2, u2⟩ := q
  simp only at h3 h4 h5 h6
  subst h3
  subst h4
  subst h5
  subst h6
  rfl

/-- C10 witness: two concrete records differing only in fields 1, 2 and 9
assemble identically. -/
theorem c10_witness :
    assemble_record ⟨5, 7, 2, [2, 4], [2], [6], some 3⟩
      = assemble_record ⟨0, 1, 2, [2, 4], [2], [6], none⟩ :=
  c10_thm ⟨5, 7, 2, [2, 4], [2], [6], some 3⟩
    ⟨0, 1, 2, [2, 4], [2], [6], none⟩ rfl rfl rfl rfl

end WillParser
